import Mathlib

/-!
Verification of the `diffgen` snapshot/diff tool (`src/diffgen/__init__.py`).

The Python source is shallowly embedded below:

* `FileInfo` mirrors the `FileInfo` class: `name` is the POSIX relative
  path (`file.relative_to(root).as_posix()`), `size` and `mtime` come from
  `stat`, and `md5` is the hex digest of the file content.  `mtime` is a
  float in Python; all the code ever does with it is equality comparison,
  so it is embedded as `Nat`.
* File contents are `List Nat` (byte sequences).  The md5 algorithm itself
  lives in `hashlib`, outside this repository; theorems are parametric in
  a digest function `hex : List Nat → String`.  `get_md5` streams the file
  in `blksize` blocks through `hash.update`; `hashlib`'s streaming update
  makes the digest depend only on the concatenation of the blocks, so the
  embedding applies `hex` to the whole content.  A file whose content
  cannot be read (`f.read` raising `OSError`) is embedded as `none`, and
  `get_md5` on it is the propagated exception, `Except.error`.
* Directory trees are `FSEntry` values: regular files, directories,
  entries of other types (the `else: pass` branch), and entries whose
  classification (`f.match` / `f.is_file` / `f.is_dir` / `stat`) raises,
  which the bare `except: continue` in `process_dir` silently skips.
* The ignore test `any(f.match(p) for p in ignored_patterns)` is embedded
  as an abstract predicate `ign : String → Bool` on the entry's relative
  POSIX path (glob matching itself is `pathlib`, outside this repository).
* The UnQLite store is an association list with latest-put-first lookup,
  matching `db[key] = value` overwrite semantics; `json.dumps`/`json.loads`
  round-trip the four record fields faithfully, so stored values are kept
  as `FileInfo` records.
-/

/-- One record per scanned file, mirroring class `FileInfo`. -/
structure FileInfo where
  name : String
  size : Nat
  mtime : Nat
  md5 : String
  deriving Repr, DecidableEq

/-- A directory entry as `process_dir` sees it.  `content = none` means every
attempt to read the file's bytes raises (`get_md5` would fail).  `err` is an
entry whose classification raises, which the bare `except` skips. -/
inductive FSEntry where
  | file (fname : String) (size : Nat) (mtime : Nat) (content : Option (List Nat))
  | dir (fname : String) (entries : List FSEntry)
  | other (fname : String)
  | err (fname : String)

/-- The name of a directory entry. -/
def entryName : FSEntry → String
  | .file n _ _ _ => n
  | .dir n _ => n
  | .other n => n
  | .err n => n

/-- POSIX join of path components, the embedding of
`file.relative_to(root).as_posix()` for the component list of the relative
path. -/
def mkName : List String → String
  | [] => ""
  | [n] => n
  | n :: rest => n ++ "/" ++ mkName rest

/-- `FileInfo.get_md5`: stream the content through the digest; a read failure
propagates out as an exception (there is no handler inside `get_md5`). -/
def get_md5 (hex : List Nat → String) : Option (List Nat) → Except Unit String
  | none => .error ()
  | some bs => .ok (hex bs)

/-- `FileInfo.__init__` without a pool: `name`, `size`, `mtime` from `stat`,
`md5` computed inline; a read failure inside `get_md5` escapes the
constructor. -/
def FileInfo.ofEntry (hex : List Nat → String) (pre : List String) (n : String)
    (sz mt : Nat) (content : Option (List Nat)) : Except Unit FileInfo :=
  (get_md5 hex content).map fun h => ⟨mkName (pre ++ [n]), sz, mt, h⟩

mutual
/-- The `for f in path.iterdir()` loop body of `process_dir`, applied to each
entry in order; results are concatenated in iteration order. -/
def processList (ign : String → Bool) (hex : List Nat → String)
    (depth : Int) (pre : List String) (curr : Int) : List FSEntry → List FileInfo
  | [] => []
  | e :: es =>
      processOne ign hex depth pre curr e ++ processList ign hex depth pre curr es

/-- One iteration of the loop in `process_dir`: ignore test first, then the
file / directory / other classification; the whole body sits in a bare
`try ... except: continue`, so a failing read inside `FileInfo(f, root)` and a
failing classification both just skip the entry.  Descending into a directory
re-enters `process_dir`, whose first line is the `current_depth >= depth`
guard. -/
def processOne (ign : String → Bool) (hex : List Nat → String)
    (depth : Int) (pre : List String) (curr : Int) : FSEntry → List FileInfo
  | .file n sz mt content =>
      if ign (mkName (pre ++ [n])) then []
      else
        match FileInfo.ofEntry hex pre n sz mt content with
        | .ok info => [info]
        | .error _ => []
  | .dir n es =>
      if ign (mkName (pre ++ [n])) then []
      else if depth ≤ curr + 1 then []
      else processList ign hex depth (pre ++ [n]) (curr + 1) es
  | .other _ => []
  | .err _ => []
end

/-- `generate_dir_listing(root, depth, ...)`: `yield from process_dir(root,
depth, 0)`, whose first line returns immediately when `0 >= depth`.  The root
directory is given by its entry list. -/
def generate_dir_listing (ign : String → Bool) (hex : List Nat → String)
    (t : List FSEntry) (depth : Int) : List FileInfo :=
  if depth ≤ 0 then [] else processList ign hex depth [] 0 t

/-- The UnQLite key-value file content: an association list where the most
recent `db[key] = value` write is found first. -/
abbrev Store : Type := List (String × FileInfo)

/-- `db[key] = value`. -/
def Store.put (s : Store) (k : String) (v : FileInfo) : Store := (k, v) :: s

/-- `key in db` / `db[key]` as one point lookup. -/
def Store.find : Store → String → Option FileInfo
  | [], _ => none
  | (k', v) :: rest, k => if k' = k then some v else Store.find rest k

/-- The empty store. -/
def Store.empty : Store := []

/-- The mapping `dump_info` persists: `db[info.name] = json.dumps(info.__dict__)`
for each record in traversal order (later records overwrite earlier ones). -/
def dump_info (infos : List FileInfo) : Store :=
  infos.foldl (fun s i => s.put i.name i) Store.empty

/-- The loop body of `get_diff`: a record is yielded when its path is absent
from the store, or present with all three of `size`, `mtime`, `md5`
different. -/
def changedRecord (db : Store) (info : FileInfo) : Bool :=
  match db.find info.name with
  | some dbinfo =>
      decide (info.size ≠ dbinfo.size) && decide (info.mtime ≠ dbinfo.mtime) &&
        decide (info.md5 ≠ dbinfo.md5)
  | none => true

/-- `get_diff(dirinfo, db_path)`: yield, in traversal order, the records the
loop body selects. -/
def get_diff (infos : List FileInfo) (db : Store) : List FileInfo :=
  infos.filter (changedRecord db)

/-- `(root / rel).as_posix()` for a root built by `pathlib.Path(...)`: the
constructor normalises `""` to `"."` (and drops trailing slashes except on
the root `/`), `Path(".") / rel` drops the leading dot, joining onto `/`
adds no extra separator, and any other normalised root gains one `/`. -/
def joinPath (root rel : String) : String :=
  if root = "" ∨ root = "." then rel
  else if root = "/" then root ++ rel
  else root ++ "/" ++ rel

/-- `dump_diff(diff, root, out_path)`: the full text written to the report
file, one `(root / x.name).as_posix() + '\n'` line per yielded record, in
order. -/
def dump_diff (diff : List FileInfo) (root : String) : String :=
  String.join (diff.map fun x => joinPath root x.name ++ "\n")

example :
    generate_dir_listing (fun _ => false) (fun bs => toString bs.length)
      [FSEntry.file "a.txt" 1 2 (some [65]),
       FSEntry.dir "sub" [FSEntry.file "b.txt" 3 4 (some [66, 67])]] 2 =
      [⟨"a.txt", 1, 2, "1"⟩, ⟨"sub/b.txt", 3, 4, "2"⟩] := by
  decide

example :
    generate_dir_listing (fun _ => false) (fun bs => toString bs.length)
      [FSEntry.file "a.txt" 1 2 (some [65]),
       FSEntry.dir "sub" [FSEntry.file "b.txt" 3 4 (some [66, 67])]] 1 =
      [⟨"a.txt", 1, 2, "1"⟩] := by
  decide

example :
    generate_dir_listing (fun _ => false) (fun bs => toString bs.length)
      [FSEntry.file "a.txt" 1 2 (some [65])] 0 = [] := by
  decide

example :
    get_diff [⟨"a.txt", 1, 2, "x"⟩] (dump_info [⟨"a.txt", 1, 2, "x"⟩]) = [] := by
  decide

example :
    get_diff [⟨"a.txt", 9, 9, "y"⟩] (dump_info [⟨"a.txt", 1, 2, "x"⟩]) =
      [⟨"a.txt", 9, 9, "y"⟩] := by
  decide

example :
    get_diff [⟨"a.txt", 1, 9, "y"⟩] (dump_info [⟨"a.txt", 1, 2, "x"⟩]) = [] := by
  decide

example : dump_diff [⟨"a.txt", 1, 2, "x"⟩] "/root" = "/root/a.txt\n" := by
  decide

example : dump_diff [⟨"a.txt", 1, 2, "x"⟩] "." = "a.txt\n" := by
  decide

example : dump_diff [⟨"a.txt", 1, 2, "x"⟩] "/" = "/a.txt\n" := by
  decide

/-! ### Store lemmas -/

theorem Store.find_append_of_eq_none {s₁ : Store} {k : String}
    (h : Store.find s₁ k = none) (s₂ : Store) :
    Store.find (s₁ ++ s₂) k = Store.find s₂ k := by
  induction s₁ with
  | nil => simp
  | cons p rest ih =>
      obtain ⟨k', v⟩ := p
      by_cases hk : k' = k
      · simp [Store.find, hk] at h
      · simp only [List.cons_append, Store.find, if_neg hk] at h ⊢
        exact ih h

theorem Store.find_append_of_eq_some {s₁ : Store} {k : String} {v : FileInfo}
    (h : Store.find s₁ k = some v) (s₂ : Store) :
    Store.find (s₁ ++ s₂) k = some v := by
  induction s₁ with
  | nil => simp [Store.find] at h
  | cons p rest ih =>
      obtain ⟨k', w⟩ := p
      by_cases hk : k' = k
      · simp only [List.cons_append, Store.find, if_pos hk] at h ⊢
        exact h
      · simp only [List.cons_append, Store.find, if_neg hk] at h ⊢
        exact ih h

theorem Store.find_eq_none_of_forall {s : Store} {k : String}
    (h : ∀ p ∈ s, p.1 ≠ k) : Store.find s k = none := by
  induction s with
  | nil => rfl
  | cons p rest ih =>
      obtain ⟨k', v⟩ := p
      have hk : k' ≠ k := h (k', v) (List.mem_cons_self _ _)
      simp only [Store.find, if_neg hk]
      exact ih fun q hq => h q (List.mem_cons_of_mem _ hq)

theorem dump_info_go (infos : List FileInfo) (acc : Store) :
    infos.foldl (fun s i => s.put i.name i) acc =
      (infos.map fun i => (i.name, i)).reverse ++ acc := by
  induction infos generalizing acc with
  | nil => simp
  | cons x xs ih =>
      simp only [List.foldl_cons, List.map_cons, List.reverse_cons]
      rw [ih]
      simp [Store.put]

theorem dump_info_eq (infos : List FileInfo) :
    dump_info infos = (infos.map fun i => (i.name, i)).reverse := by
  rw [dump_info, dump_info_go]
  simp [Store.empty]

theorem find_dump_of_nodup {infos : List FileInfo}
    (h : (infos.map FileInfo.name).Nodup) {i : FileInfo} (hi : i ∈ infos) :
    Store.find (dump_info infos) i.name = some i := by
  induction infos with
  | nil => cases hi
  | cons x xs ih =>
      rw [dump_info_eq] at *
      simp only [List.map_cons, List.reverse_cons]
      simp only [List.map_cons, List.nodup_cons] at h
      rcases List.mem_cons.mp hi with rfl | hmem
      · have hnone : Store.find ((xs.map fun i => (i.name, i)).reverse) i.name = none := by
          apply Store.find_eq_none_of_forall
          intro p hp
          rw [List.mem_reverse] at hp
          obtain ⟨j, hj, rfl⟩ := List.mem_map.mp hp
          exact fun hEq => h.1 (hEq ▸ List.mem_map_of_mem FileInfo.name hj)
        rw [Store.find_append_of_eq_none hnone]
        simp [Store.find]
      · exact Store.find_append_of_eq_some (ih h.2 hmem) _

/-! ### Diff lemmas -/

theorem changedRecord_self_false (db : Store) (i : FileInfo)
    (h : db.find i.name = some i) : changedRecord db i = false := by
  simp [changedRecord, h]

theorem get_diff_dump_self {infos : List FileInfo}
    (h : (infos.map FileInfo.name).Nodup) :
    get_diff infos (dump_info infos) = [] := by
  rw [get_diff, List.filter_eq_nil_iff]
  intro i hi
  simp [changedRecord_self_false _ _ (find_dump_of_nodup h hi)]

/-! ### Well-formed directory trees

A real filesystem directory has pairwise-distinct entry names, and an entry
name is a nonempty string without a path separator.  This is exactly the
data-model invariant that relative paths identify records uniquely within one
traversal. -/

/-- A legal single filesystem entry name: nonempty, no `/`. -/
def validName (n : String) : Bool :=
  decide (n ≠ "") && decide ('/' ∉ n.data)

mutual
/-- A well-formed entry: its own name is legal and, for a directory, its
children form a well-formed listing. -/
def wfEntry : FSEntry → Bool
  | .file n _ _ _ => validName n
  | .dir n es => validName n && wfList es
  | .other n => validName n
  | .err n => validName n

/-- A well-formed directory listing: every entry well formed and sibling names
pairwise distinct. -/
def wfList : List FSEntry → Bool
  | [] => true
  | e :: es => wfEntry e && wfList es && decide (entryName e ∉ es.map entryName)
end

mutual
/-- The component-level paths of the records `processList` emits, used to
reason about name uniqueness. -/
def pathsList (ign : String → Bool) (depth : Int) (pre : List String)
    (curr : Int) : List FSEntry → List (List String)
  | [] => []
  | e :: es => pathsOne ign depth pre curr e ++ pathsList ign depth pre curr es

/-- The component-level paths of the records `processOne` emits. -/
def pathsOne (ign : String → Bool) (depth : Int) (pre : List String)
    (curr : Int) : FSEntry → List (List String)
  | .file n _ _ content =>
      if ign (mkName (pre ++ [n])) then []
      else
        match content with
        | some _ => [pre ++ [n]]
        | none => []
  | .dir n es =>
      if ign (mkName (pre ++ [n])) then []
      else if depth ≤ curr + 1 then []
      else pathsList ign depth (pre ++ [n]) (curr + 1) es
  | .other _ => []
  | .err _ => []
end

mutual
theorem namesList (ign : String → Bool) (hex : List Nat → String) (depth : Int)
    (pre : List String) (curr : Int) (es : List FSEntry) :
    (processList ign hex depth pre curr es).map FileInfo.name =
      (pathsList ign depth pre curr es).map mkName := by
  cases es with
  | nil => rfl
  | cons e es' =>
      rw [processList, pathsList, List.map_append, List.map_append,
        namesOne ign hex depth pre curr e, namesList ign hex depth pre curr es']

theorem namesOne (ign : String → Bool) (hex : List Nat → String) (depth : Int)
    (pre : List String) (curr : Int) (e : FSEntry) :
    (processOne ign hex depth pre curr e).map FileInfo.name =
      (pathsOne ign depth pre curr e).map mkName := by
  cases e with
  | file n sz mt content =>
      by_cases hign : ign (mkName (pre ++ [n]))
      · cases content with
        | none => simp [processOne, pathsOne, hign]
        | some bs => simp [processOne, pathsOne, hign]
      · cases content with
        | none => simp [processOne, pathsOne, hign, FileInfo.ofEntry, get_md5, Except.map]
        | some bs => simp [processOne, pathsOne, hign, FileInfo.ofEntry, get_md5, Except.map]
  | dir n es =>
      by_cases hign : ign (mkName (pre ++ [n]))
      · simp [processOne, pathsOne, hign]
      · by_cases hd : depth ≤ curr + 1
        · simp [processOne, pathsOne, hign, hd]
        · simp only [processOne, pathsOne, if_neg hign, if_neg hd]
          exact namesList ign hex depth (pre ++ [n]) (curr + 1) es
  | other n => rfl
  | err n => rfl
end

mutual
theorem pathsList_shape (ign : String → Bool) (depth : Int) (pre : List String)
    (curr : Int) (es : List FSEntry) :
    ∀ p ∈ pathsList ign depth pre curr es,
      ∃ e ∈ es, ∃ suf, p = pre ++ entryName e :: suf := by
  cases es with
  | nil => intro p hp; cases hp
  | cons e es' =>
      intro p hp
      rw [pathsList] at hp
      rcases List.mem_append.mp hp with h1 | h2
      · obtain ⟨suf, hsuf⟩ := pathsOne_shape ign depth pre curr e p h1
        exact ⟨e, List.mem_cons_self _ _, suf, hsuf⟩
      · obtain ⟨e', he', suf, hsuf⟩ := pathsList_shape ign depth pre curr es' p h2
        exact ⟨e', List.mem_cons_of_mem _ he', suf, hsuf⟩

theorem pathsOne_shape (ign : String → Bool) (depth : Int) (pre : List String)
    (curr : Int) (e : FSEntry) :
    ∀ p ∈ pathsOne ign depth pre curr e,
      ∃ suf, p = pre ++ entryName e :: suf := by
  cases e with
  | file n sz mt content =>
      intro p hp
      simp only [pathsOne] at hp
      by_cases hign : ign (mkName (pre ++ [n]))
      · simp [hign] at hp
      · rw [if_neg hign] at hp
        cases content with
        | none => cases hp
        | some bs =>
            have : p = pre ++ [n] := List.mem_singleton.mp hp
            exact ⟨[], this⟩
  | dir n es =>
      intro p hp
      simp only [pathsOne] at hp
      by_cases hign : ign (mkName (pre ++ [n]))
      · simp [hign] at hp
      · rw [if_neg hign] at hp
        by_cases hd : depth ≤ curr + 1
        · simp [hd] at hp
        · rw [if_neg hd] at hp
          obtain ⟨e', _, suf', hsuf⟩ :=
            pathsList_shape ign depth (pre ++ [n]) (curr + 1) es p hp
          refine ⟨entryName e' :: suf', ?_⟩
          rw [hsuf, List.append_assoc]
          rfl
  | other n => intro p hp; cases hp
  | err n => intro p hp; cases hp
end

theorem validName_iff {n : String} :
    validName n = true ↔ n ≠ "" ∧ '/' ∉ n.data := by
  simp [validName]

theorem slash_cancel : ∀ (a b x y : List Char), '/' ∉ a → '/' ∉ b →
    a ++ '/' :: x = b ++ '/' :: y → a = b ∧ x = y := by
  intro a
  induction a with
  | nil =>
      intro b x y _ hb h
      cases b with
      | nil => simpa using h
      | cons c b' =>
          simp only [List.nil_append, List.cons_append, List.cons.injEq] at h
          obtain ⟨h1, _⟩ := h
          exact absurd (show ('/' : Char) ∈ c :: b' by
            rw [h1]; exact List.mem_cons_self c b') hb
  | cons c a' ih =>
      intro b x y ha hb h
      cases b with
      | nil =>
          simp only [List.cons_append, List.nil_append, List.cons.injEq] at h
          obtain ⟨h1, _⟩ := h
          exact absurd (show ('/' : Char) ∈ c :: a' by
            rw [← h1]; exact List.mem_cons_self c a') ha
      | cons d b' =>
          simp only [List.cons_append, List.cons.injEq] at h
          obtain ⟨h1, h2⟩ := h
          have ha' : ('/' : Char) ∉ a' := fun hm => ha (List.mem_cons_of_mem _ hm)
          have hb' : ('/' : Char) ∉ b' := fun hm => hb (List.mem_cons_of_mem _ hm)
          obtain ⟨heq, hxy⟩ := ih b' x y ha' hb' h2
          exact ⟨by rw [h1, heq], hxy⟩

theorem mkName_cons_data (a : String) (l : List String) (hl : l ≠ []) :
    (mkName (a :: l)).data = a.data ++ '/' :: (mkName l).data := by
  cases l with
  | nil => cases hl rfl
  | cons b r =>
      show (a ++ "/" ++ mkName (b :: r)).data = _
      have hslash : ("/" : String).data = ['/'] := rfl
      simp [String.data_append, hslash]

theorem mkName_inj : ∀ (l₁ l₂ : List String), l₁ ≠ [] → l₂ ≠ [] →
    (∀ c ∈ l₁, validName c = true) → (∀ c ∈ l₂, validName c = true) →
    mkName l₁ = mkName l₂ → l₁ = l₂ := by
  intro l₁
  induction l₁ with
  | nil => intro l₂ h₁; cases h₁ rfl
  | cons a r₁ ih =>
      intro l₂ _ h₂ hv₁ hv₂ heq
      cases l₂ with
      | nil => cases h₂ rfl
      | cons b r₂ =>
          cases r₁ with
          | nil =>
              cases r₂ with
              | nil =>
                  have : a = b := heq
                  rw [this]
              | cons c r₂' =>
                  have hdata := congrArg String.data heq
                  rw [mkName_cons_data b (c :: r₂') (by simp)] at hdata
                  have hmem : ('/' : Char) ∈ (mkName [a]).data := by
                    rw [hdata]
                    exact List.mem_append_right _ (List.mem_cons_self _ _)
                  have hva := (validName_iff.mp (hv₁ a (List.mem_cons_self _ _))).2
                  exact absurd hmem hva
          | cons c r₁' =>
              cases r₂ with
              | nil =>
                  have hdata := congrArg String.data heq
                  rw [mkName_cons_data a (c :: r₁') (by simp)] at hdata
                  have hmem : ('/' : Char) ∈ (mkName [b]).data := by
                    rw [← hdata]
                    exact List.mem_append_right _ (List.mem_cons_self _ _)
                  have hvb := (validName_iff.mp (hv₂ b (List.mem_cons_self _ _))).2
                  exact absurd hmem hvb
              | cons d r₂' =>
                  have hdata := congrArg String.data heq
                  rw [mkName_cons_data a (c :: r₁') (by simp),
                    mkName_cons_data b (d :: r₂') (by simp)] at hdata
                  have hva := (validName_iff.mp (hv₁ a (List.mem_cons_self _ _))).2
                  have hvb := (validName_iff.mp (hv₂ b (List.mem_cons_self _ _))).2
                  obtain ⟨hab, hrest⟩ := slash_cancel a.data b.data _ _ hva hvb hdata
                  have hab' : a = b := String.ext hab
                  have hr : mkName (c :: r₁') = mkName (d :: r₂') := String.ext hrest
                  have htail := ih (d :: r₂') (by simp) (by simp)
                    (fun x hx => hv₁ x (List.mem_cons_of_mem _ hx))
                    (fun x hx => hv₂ x (List.mem_cons_of_mem _ hx)) hr
                  rw [hab', htail]

mutual
theorem pathsList_nodup (ign : String → Bool) (depth : Int) (pre : List String)
    (curr : Int) (es : List FSEntry) (h : wfList es = true) :
    (pathsList ign depth pre curr es).Nodup := by
  cases es with
  | nil => exact List.nodup_nil
  | cons e es' =>
      rw [wfList] at h
      simp only [Bool.and_eq_true, decide_eq_true_eq] at h
      obtain ⟨⟨he, hes⟩, hname⟩ := h
      rw [pathsList]
      refine List.Nodup.append (pathsOne_nodup ign depth pre curr e he)
        (pathsList_nodup ign depth pre curr es' hes) ?_
      intro p hp₁ hp₂
      obtain ⟨suf₁, hs₁⟩ := pathsOne_shape ign depth pre curr e p hp₁
      obtain ⟨e', he', suf₂, hs₂⟩ := pathsList_shape ign depth pre curr es' p hp₂
      rw [hs₁] at hs₂
      have hcan := List.append_cancel_left hs₂
      have hhead : entryName e = entryName e' := (List.cons.injEq _ _ _ _ ▸ hcan).1
      exact hname (hhead ▸ List.mem_map_of_mem entryName he')

theorem pathsOne_nodup (ign : String → Bool) (depth : Int) (pre : List String)
    (curr : Int) (e : FSEntry) (h : wfEntry e = true) :
    (pathsOne ign depth pre curr e).Nodup := by
  cases e with
  | file n sz mt content =>
      by_cases hign : ign (mkName (pre ++ [n]))
      · simp [pathsOne, hign]
      · cases content with
        | none => simp [pathsOne, hign]
        | some bs => simp [pathsOne, hign]
  | dir n es =>
      by_cases hign : ign (mkName (pre ++ [n]))
      · simp [pathsOne, hign]
      · by_cases hd : depth ≤ curr + 1
        · simp [pathsOne, hign, hd]
        · have hrw : pathsOne ign depth pre curr (.dir n es) =
              pathsList ign depth (pre ++ [n]) (curr + 1) es := by
            simp [pathsOne, hign, hd]
          rw [hrw]
          rw [wfEntry] at h
          simp only [Bool.and_eq_true] at h
          exact pathsList_nodup ign depth (pre ++ [n]) (curr + 1) es h.2
  | other n => exact List.nodup_nil
  | err n => exact List.nodup_nil
end

mutual
theorem pathsList_valid (ign : String → Bool) (depth : Int) (pre : List String)
    (curr : Int) (es : List FSEntry) (hpre : ∀ c ∈ pre, validName c = true)
    (h : wfList es = true) :
    ∀ p ∈ pathsList ign depth pre curr es, ∀ c ∈ p, validName c = true := by
  cases es with
  | nil => intro p hp; cases hp
  | cons e es' =>
      intro p hp
      rw [wfList] at h
      simp only [Bool.and_eq_true, decide_eq_true_eq] at h
      obtain ⟨⟨he, hes⟩, _⟩ := h
      rw [pathsList] at hp
      rcases List.mem_append.mp hp with h1 | h2
      · exact pathsOne_valid ign depth pre curr e hpre he p h1
      · exact pathsList_valid ign depth pre curr es' hpre hes p h2

theorem pathsOne_valid (ign : String → Bool) (depth : Int) (pre : List String)
    (curr : Int) (e : FSEntry) (hpre : ∀ c ∈ pre, validName c = true)
    (h : wfEntry e = true) :
    ∀ p ∈ pathsOne ign depth pre curr e, ∀ c ∈ p, validName c = true := by
  cases e with
  | file n sz mt content =>
      intro p hp
      simp only [pathsOne] at hp
      by_cases hign : ign (mkName (pre ++ [n]))
      · simp [hign] at hp
      · rw [if_neg hign] at hp
        cases content with
        | none => cases hp
        | some bs =>
            have hpn : p = pre ++ [n] := List.mem_singleton.mp hp
            intro c hc
            rw [hpn] at hc
            rcases List.mem_append.mp hc with hc1 | hc2
            · exact hpre c hc1
            · rw [List.mem_singleton.mp hc2]
              rw [wfEntry] at h
              exact h
  | dir n es =>
      intro p hp
      simp only [pathsOne] at hp
      by_cases hign : ign (mkName (pre ++ [n]))
      · simp [hign] at hp
      · rw [if_neg hign] at hp
        by_cases hd : depth ≤ curr + 1
        · simp [hd] at hp
        · rw [if_neg hd] at hp
          rw [wfEntry] at h
          simp only [Bool.and_eq_true] at h
          have hpre' : ∀ c ∈ pre ++ [n], validName c = true := by
            intro c hc
            rcases List.mem_append.mp hc with hc1 | hc2
            · exact hpre c hc1
            · rw [List.mem_singleton.mp hc2]; exact h.1
          exact pathsList_valid ign depth (pre ++ [n]) (curr + 1) es hpre' h.2 p hp
  | other n => intro p hp; cases hp
  | err n => intro p hp; cases hp
end

/-- Traversal of a well-formed directory tree yields pairwise-distinct
relative paths: the data-model invariant that `path` is a unique key. -/
theorem listing_names_nodup (ign : String → Bool) (hex : List Nat → String)
    (t : List FSEntry) (depth : Int) (h : wfList t = true) :
    ((generate_dir_listing ign hex t depth).map FileInfo.name).Nodup := by
  rw [generate_dir_listing]
  by_cases hd : depth ≤ 0
  · simp [hd]
  · rw [if_neg hd, namesList]
    refine List.Nodup.map_on ?_ (pathsList_nodup ign depth [] 0 t h)
    intro x hx y hy hxy
    have hxv : ∀ c ∈ x, validName c = true :=
      pathsList_valid ign depth [] 0 t (by simp) h x hx
    have hyv : ∀ c ∈ y, validName c = true :=
      pathsList_valid ign depth [] 0 t (by simp) h y hy
    obtain ⟨ex, _, sufx, hsx⟩ := pathsList_shape ign depth [] 0 t x hx
    obtain ⟨ey, _, sufy, hsy⟩ := pathsList_shape ign depth [] 0 t y hy
    exact mkName_inj x y (by simp [hsx]) (by simp [hsy]) hxv hyv hxy

/-! ### Claim theorems -/

/-- C1: a fresh record whose path is present in the snapshot store is emitted
by the diff exactly when all three of its `size`, `mtime` and `md5` fields
differ from the stored record's corresponding fields; if any one of the three
is equal, the record is not emitted. -/
theorem c1_present_emitted_iff_all_three_differ
    (infos : List FileInfo) (db : Store) (info dbinfo : FileInfo)
    (hmem : info ∈ infos) (hdb : db.find info.name = some dbinfo) :
    info ∈ get_diff infos db ↔
      info.size ≠ dbinfo.size ∧ info.mtime ≠ dbinfo.mtime ∧ info.md5 ≠ dbinfo.md5 := by
  simp [get_diff, List.mem_filter, hmem, changedRecord, hdb, and_assoc]

theorem c1_witness :
    (⟨"a", 1, 2, "x"⟩ : FileInfo) ∈
      get_diff [⟨"a", 1, 2, "x"⟩] [("a", ⟨"a", 3, 4, "y"⟩)] :=
  (c1_present_emitted_iff_all_three_differ [⟨"a", 1, 2, "x"⟩] [("a", ⟨"a", 3, 4, "y"⟩)]
    ⟨"a", 1, 2, "x"⟩ ⟨"a", 3, 4, "y"⟩ (by decide) (by decide)).mpr (by decide)

/-- C2: on any well-formed directory tree, generating a snapshot and then
diffing the unchanged tree against it yields an empty report: every fresh
record is found in the store with equal `size`, `mtime` and `md5`, so nothing
is emitted. -/
theorem c2_generate_then_diff_empty (ign : String → Bool) (hex : List Nat → String)
    (t : List FSEntry) (depth : Int) (h : wfList t = true) :
    get_diff (generate_dir_listing ign hex t depth)
      (dump_info (generate_dir_listing ign hex t depth)) = [] :=
  get_diff_dump_self (listing_names_nodup ign hex t depth h)

theorem c2_witness :
    get_diff
      (generate_dir_listing (fun _ => false) (fun bs => toString bs.length)
        [FSEntry.file "a.txt" 1 2 (some [65]),
         FSEntry.dir "sub" [FSEntry.file "b.txt" 3 4 (some [66, 67])]] 2)
      (dump_info
        (generate_dir_listing (fun _ => false) (fun bs => toString bs.length)
          [FSEntry.file "a.txt" 1 2 (some [65]),
           FSEntry.dir "sub" [FSEntry.file "b.txt" 3 4 (some [66, 67])]] 2)) = [] :=
  c2_generate_then_diff_empty (fun _ => false) (fun bs => toString bs.length)
    [FSEntry.file "a.txt" 1 2 (some [65]),
     FSEntry.dir "sub" [FSEntry.file "b.txt" 3 4 (some [66, 67])]] 2 (by decide)

/-- C6: a fresh record whose path is absent from the snapshot store is always
emitted by the diff, whatever its `size`, `mtime` and `md5` fields hold. -/
theorem c6_absent_always_emitted (infos : List FileInfo) (db : Store)
    (info : FileInfo) (hmem : info ∈ infos) (habs : db.find info.name = none) :
    info ∈ get_diff infos db := by
  simp [get_diff, List.mem_filter, hmem, changedRecord, habs]

theorem c6_witness :
    (⟨"new", 0, 0, ""⟩ : FileInfo) ∈
      get_diff [⟨"new", 0, 0, ""⟩] [("old", ⟨"old", 1, 2, "x"⟩)] :=
  c6_absent_always_emitted [⟨"new", 0, 0, ""⟩] [("old", ⟨"old", 1, 2, "x"⟩)]
    ⟨"new", 0, 0, ""⟩ (by decide) (by decide)

/-- C7: the diff only ever emits records drawn from the fresh traversal
sequence (as a sublist, so in traversal order); a path that no fresh record
carries — in particular a stored path deleted before the re-scan — never
appears in the diff output. -/
theorem c7_diff_only_from_fresh_traversal (infos : List FileInfo) (db : Store) :
    (get_diff infos db).Sublist infos ∧
      ∀ p : String, p ∉ infos.map FileInfo.name →
        p ∉ (get_diff infos db).map FileInfo.name := by
  constructor
  · exact List.filter_sublist infos
  · intro p hp hmem
    apply hp
    obtain ⟨j, hj, rfl⟩ := List.mem_map.mp hmem
    exact List.mem_map_of_mem _ (List.mem_of_mem_filter hj)

theorem c7_witness :
    ("gone" : String) ∉
      (get_diff [⟨"kept", 1, 2, "x"⟩] [("gone", ⟨"gone", 1, 2, "x"⟩)]).map
        FileInfo.name :=
  (c7_diff_only_from_fresh_traversal [⟨"kept", 1, 2, "x"⟩]
    [("gone", ⟨"gone", 1, 2, "x"⟩)]).2 "gone" (by decide)

/-- C10: for every depth value at most 0, traversal yields no records at all
(the recursion guard returns before iterating the root), so the snapshot is
empty and the diff of such a listing against any store is empty. -/
theorem c10_nonpositive_depth_empty (ign : String → Bool) (hex : List Nat → String)
    (t : List FSEntry) (db : Store) (depth : Int) (h : depth ≤ 0) :
    generate_dir_listing ign hex t depth = [] ∧
      get_diff (generate_dir_listing ign hex t depth) db = [] := by
  have hl : generate_dir_listing ign hex t depth = [] := by
    simp [generate_dir_listing, h]
  exact ⟨hl, by rw [hl]; rfl⟩

theorem c10_witness :
    generate_dir_listing (fun _ => false) (fun _ => "")
        [FSEntry.file "a" 1 2 (some [3])] 0 = [] ∧
      get_diff
        (generate_dir_listing (fun _ => false) (fun _ => "")
          [FSEntry.file "a" 1 2 (some [3])] 0) [("a", ⟨"a", 1, 2, "x"⟩)] = [] :=
  c10_nonpositive_depth_empty (fun _ => false) (fun _ => "")
    [FSEntry.file "a" 1 2 (some [3])] [("a", ⟨"a", 1, 2, "x"⟩)] 0 (by decide)

/-- C4 counterexample: on a root holding the immediate file child `a.txt` and
a subdirectory, traversal with max depth 0 yields nothing at all — not the
immediate file children; it is max depth 1 that yields exactly them. -/
theorem c4_counterexample :
    generate_dir_listing (fun _ => false) (fun bs => toString bs.length)
        [FSEntry.file "a.txt" 1 2 (some [65]),
         FSEntry.dir "sub" [FSEntry.file "b.txt" 3 4 (some [66, 67])]] 0 = [] ∧
      generate_dir_listing (fun _ => false) (fun bs => toString bs.length)
        [FSEntry.file "a.txt" 1 2 (some [65]),
         FSEntry.dir "sub" [FSEntry.file "b.txt" 3 4 (some [66, 67])]] 1 =
        [⟨"a.txt", 1, 2, "1"⟩] := by
  decide

/-- The spec's description of a shallowest scan, as its own definition: the
non-ignored, readable regular files that are immediate children of the root,
in directory order, with no descent into subdirectories. -/
def specImmediateFiles (ign : String → Bool) (hex : List Nat → String) :
    List FSEntry → List FileInfo
  | [] => []
  | FSEntry.file n sz mt (some bs) :: es =>
      if ign (mkName [n]) then specImmediateFiles ign hex es
      else ⟨mkName [n], sz, mt, hex bs⟩ :: specImmediateFiles ign hex es
  | _ :: es => specImmediateFiles ign hex es

theorem processList_depth_one (ign : String → Bool) (hex : List Nat → String)
    (t : List FSEntry) :
    processList ign hex 1 [] 0 t = specImmediateFiles ign hex t := by
  induction t with
  | nil => rfl
  | cons e es ih =>
      cases e with
      | file n sz mt content =>
          cases content with
          | some bs =>
              by_cases hign : ign (mkName [n])
              · simp [processList, processOne, specImmediateFiles, hign, ih]
              · simp [processList, processOne, specImmediateFiles, hign, ih,
                  FileInfo.ofEntry, get_md5, Except.map]
          | none =>
              by_cases hign : ign (mkName [n])
              · simp [processList, processOne, specImmediateFiles, hign, ih]
              · simp [processList, processOne, specImmediateFiles, hign, ih,
                  FileInfo.ofEntry, get_md5, Except.map]
      | dir n es' =>
          by_cases hign : ign (mkName [n])
          · simp [processList, processOne, specImmediateFiles, hign, ih]
          · simp [processList, processOne, specImmediateFiles, hign, ih]
      | other n => simp [processList, processOne, specImmediateFiles, ih]
      | err n => simp [processList, processOne, specImmediateFiles, ih]

/-- C4 amended: max depth 0 yields no records; max depth 1 — not 0 — yields
exactly the non-ignored readable regular files that are immediate children of
the root, and excludes everything inside subdirectories. -/
theorem c4_amended_immediate_children_at_depth_one (ign : String → Bool)
    (hex : List Nat → String) (t : List FSEntry) :
    generate_dir_listing ign hex t 0 = [] ∧
      generate_dir_listing ign hex t 1 = specImmediateFiles ign hex t := by
  constructor
  · simp [generate_dir_listing]
  · rw [generate_dir_listing, if_neg (by norm_num : ¬(1 : Int) ≤ 0)]
    exact processList_depth_one ign hex t

theorem processList_append (ign : String → Bool) (hex : List Nat → String)
    (depth : Int) (pre : List String) (curr : Int) (xs ys : List FSEntry) :
    processList ign hex depth pre curr (xs ++ ys) =
      processList ign hex depth pre curr xs ++ processList ign hex depth pre curr ys := by
  induction xs with
  | nil => rfl
  | cons e es ih =>
      rw [List.cons_append, processList, processList, ih, List.append_assoc]

/-- C5 counterexample: a file whose content read fails (`bad`) does not abort
the run — traversal completes, skips `bad` silently and still emits its
siblings, exactly as it does for classification errors. -/
theorem c5_counterexample :
    generate_dir_listing (fun _ => false) (fun bs => toString bs.length)
        [FSEntry.file "good" 3 10 (some [1, 2, 3]),
         FSEntry.file "bad" 5 11 none,
         FSEntry.file "good2" 4 12 (some [9])] 1 =
      [⟨"good", 3, 10, "3"⟩, ⟨"good2", 4, 12, "1"⟩] := by
  decide

/-- C5 amended: `get_md5` itself does not mask a read failure — the error
propagates out of it — but the traverser's bare per-entry exception handler
catches it, so the file's entry is silently dropped and traversal of the
remaining entries continues unchanged, the same treatment per-entry
classification errors get. -/
theorem c5_amended_read_failure_silently_skipped (hex : List Nat → String)
    (ign : String → Bool) (depth : Int) (pre : List String) (curr : Int)
    (n : String) (sz mt : Nat) (xs ys : List FSEntry) :
    get_md5 hex none = Except.error () ∧
      processList ign hex depth pre curr (xs ++ FSEntry.file n sz mt none :: ys) =
        processList ign hex depth pre curr (xs ++ ys) := by
  refine ⟨rfl, ?_⟩
  rw [processList_append, processList_append, processList]
  have hone : processOne ign hex depth pre curr (FSEntry.file n sz mt none) = [] := by
    by_cases hign : ign (mkName (pre ++ [n])) <;>
      simp [processOne, hign, FileInfo.ofEntry, get_md5, Except.map]
  rw [hone, List.nil_append]

/-! ### Pool mode (`--process` nonzero)

`main_generate` / `main_diff` evaluate `Pool(args.process)` when
`args.process != 0`, but no `Pool` name is ever imported in the module
(`multiprocessing` is absent from the imports), so the name lookup raises
`NameError` before any traversal.  Independently, with a pool
`FileInfo.__init__` stores the raw `pool.apply_async` handle in `self.md5`
and the code never calls `.get()` on it, so `json.dumps(info.__dict__)`
would raise `TypeError` on the handle. -/

/-- What the `md5` attribute holds: a resolved hex digest (inline mode) or the
unresolved `AsyncResult` handle `pool.apply_async` returned (pool mode). -/
inductive MD5Slot where
  | hexDigest (s : String)
  | asyncHandle (content : Option (List Nat))
  deriving Repr, DecidableEq

/-- `FileInfo` as `__init__` actually leaves it, md5 slot included. -/
structure FileInfoP where
  name : String
  size : Nat
  mtime : Nat
  md5 : MD5Slot
  deriving Repr, DecidableEq

/-- `FileInfo.__init__(file, root, pool)`: with a pool, `self.md5` receives the
`apply_async` handle and the constructor returns at once; without one,
`get_md5` runs inline and a read failure escapes. -/
def FileInfoP.init (hex : List Nat → String) (usePool : Bool) (pre : List String)
    (n : String) (sz mt : Nat) (content : Option (List Nat)) :
    Except Unit FileInfoP :=
  if usePool then .ok ⟨mkName (pre ++ [n]), sz, mt, .asyncHandle content⟩
  else (get_md5 hex content).map fun h => ⟨mkName (pre ++ [n]), sz, mt, .hexDigest h⟩

/-- `json.dumps` on the `md5` attribute: a string serialises, an `AsyncResult`
handle raises `TypeError`. -/
def serializeMD5 : MD5Slot → Except Unit String
  | .hexDigest s => .ok s
  | .asyncHandle _ => .error ()

/-- The Python exceptions the orchestrator can die with. -/
inductive PyError where
  | nameError
  | typeError
  deriving Repr, DecidableEq

/-- `main_generate(args)`: `args.process != 0` enters `with Pool(args.process)`,
and the unimported name `Pool` raises `NameError` there; `args.process == 0`
runs the inline pipeline to completion. -/
def main_generate (hex : List Nat → String) (process : Int) (ign : String → Bool)
    (t : List FSEntry) (depth : Int) : Except PyError Store :=
  if process ≠ 0 then .error .nameError
  else .ok (dump_info (generate_dir_listing ign hex t depth))

/-- `main_diff(args)`: same structure as `main_generate`, producing the report
text. -/
def main_diff (hex : List Nat → String) (process : Int) (ign : String → Bool)
    (t : List FSEntry) (depth : Int) (db : Store) (root : String) :
    Except PyError String :=
  if process ≠ 0 then .error .nameError
  else .ok (dump_diff (get_diff (generate_dir_listing ign hex t depth) db) root)

/-- C3 fails on the code: with one worker process requested, `main_generate`
dies with `NameError` (`Pool` is never imported) on the very tree the inline
mode snapshots fine, so the two modes are not output-equivalent; moreover the
pool-mode constructor leaves the unresolved async handle in `md5` — it is
never resolved to a hex digest — and serialising that handle fails. -/
theorem c3_pool_mode_fails :
    main_generate (fun bs => toString bs.length) 1 (fun _ => false)
        [FSEntry.file "a.txt" 1 2 (some [65])] 1 = Except.error PyError.nameError ∧
      main_generate (fun bs => toString bs.length) 0 (fun _ => false)
        [FSEntry.file "a.txt" 1 2 (some [65])] 1 =
        Except.ok [("a.txt", ⟨"a.txt", 1, 2, "1"⟩)] ∧
      main_diff (fun bs => toString bs.length) 1 (fun _ => false)
        [FSEntry.file "a.txt" 1 2 (some [65])] 1 [] "/r" =
        Except.error PyError.nameError ∧
      FileInfoP.init (fun bs => toString bs.length) true [] "a.txt" 1 2 (some [65]) =
        Except.ok ⟨"a.txt", 1, 2, MD5Slot.asyncHandle (some [65])⟩ ∧
      serializeMD5 (MD5Slot.asyncHandle (some [65])) = Except.error () :=
  ⟨rfl, rfl, rfl, rfl, rfl⟩

/-! ### The diff report text -/

/-- A POSIX-absolute path: one that starts with `/`. -/
def isAbsPosix (s : String) : Bool :=
  match s.data with
  | c :: _ => c == '/'
  | [] => false

/-- The path printed for each report line: `(root / x.name).as_posix()`. -/
def reportPaths (diff : List FileInfo) (root : String) : List String :=
  diff.map fun x => joinPath root x.name

/-- Newline count of a string, to count the report's lines. -/
def countNL (s : String) : Nat := s.data.count '\n'

theorem data_foldl_append (l : List String) (acc : String) :
    (l.foldl (fun r s => r ++ s) acc).data = acc.data ++ (l.map String.data).flatten := by
  induction l generalizing acc with
  | nil => simp
  | cons s rest ih =>
      rw [List.foldl_cons, ih, String.data_append]
      simp [List.append_assoc]

theorem data_join (l : List String) :
    (String.join l).data = (l.map String.data).flatten := by
  have h : String.join l = l.foldl (fun r s => r ++ s) "" := rfl
  rw [h, data_foldl_append]
  rfl

theorem count_flatten_lines (lines : List String)
    (h : ∀ s ∈ lines, s.data.count '\n' = 1) :
    ((lines.map String.data).flatten).count '\n' = lines.length := by
  induction lines with
  | nil => rfl
  | cons s rest ih =>
      rw [List.map_cons, List.flatten_cons, List.count_append,
        h s (List.mem_cons_self _ _),
        ih fun t ht => h t (List.mem_cons_of_mem _ ht)]
      simp [Nat.add_comm]

theorem countNL_line (root rel : String) (hroot : '\n' ∉ root.data)
    (hrel : '\n' ∉ rel.data) :
    (joinPath root rel ++ "\n").data.count '\n' = 1 := by
  rw [String.data_append, List.count_append]
  have h0 : (joinPath root rel).data.count '\n' = 0 := by
    rw [joinPath]
    by_cases hdot : root = "" ∨ root = "."
    · rw [if_pos hdot]
      exact List.count_eq_zero.mpr hrel
    · rw [if_neg hdot]
      by_cases hr : root = "/"
      · rw [if_pos hr, String.data_append, List.count_append,
          List.count_eq_zero.mpr hrel]
        subst hr
        decide
      · rw [if_neg hr, String.data_append, String.data_append, List.count_append,
          List.count_append, List.count_eq_zero.mpr hroot,
          List.count_eq_zero.mpr hrel]
        decide
  rw [h0]
  decide

theorem countNL_dump_diff (diff : List FileInfo) (root : String)
    (hroot : '\n' ∉ root.data) (hnames : ∀ i ∈ diff, '\n' ∉ i.name.data) :
    countNL (dump_diff diff root) = diff.length := by
  rw [countNL, dump_diff, data_join]
  rw [count_flatten_lines]
  · exact List.length_map _ _
  · intro s hs
    obtain ⟨x, hx, rfl⟩ := List.mem_map.mp hs
    exact countNL_line root x.name hroot (hnames x hx)

theorem isAbsPosix_joinPath (root rel : String) (h : isAbsPosix root = true) :
    isAbsPosix (joinPath root rel) = true := by
  have hroot : ∃ cs, root.data = '/' :: cs := by
    unfold isAbsPosix at h
    cases hd : root.data with
    | nil => rw [hd] at h; cases h
    | cons c cs =>
        rw [hd] at h
        simp only [beq_iff_eq] at h
        subst h
        exact ⟨cs, hd ▸ rfl⟩
  obtain ⟨cs, hcs⟩ := hroot
  have hne : ¬(root = "" ∨ root = ".") := by
    rintro (rfl | rfl)
    · exact List.noConfusion hcs
    · have hd : ("." : String).data = ['.'] := rfl
      rw [hd] at hcs
      simp at hcs
  rw [joinPath, if_neg hne]
  by_cases hr : root = "/"
  · rw [if_pos hr]
    have hdata : (root ++ rel).data = '/' :: rel.data := by
      rw [String.data_append, hr]
      rfl
    rw [isAbsPosix, hdata]
    rfl
  · rw [if_neg hr]
    have hdata : (root ++ "/" ++ rel).data = '/' :: (cs ++ ('/' :: rel.data)) := by
      rw [String.data_append, String.data_append, hcs]
      have hs : ("/" : String).data = ['/'] := rfl
      simp [hs, List.append_assoc]
    rw [isAbsPosix, hdata]
    rfl

/-- C9 fails on the code as stated: with the relative source root `rel` the
single report line is `rel/a.txt`, which is not an absolute path — the code
writes `root / name` and nothing makes that absolute for a relative root. -/
theorem c9_counterexample :
    dump_diff [⟨"a.txt", 1, 2, "h"⟩] "rel" = "rel/a.txt\n" ∧
      isAbsPosix "rel/a.txt" = false := by
  constructor
  · rfl
  · decide

/-- C9 amended: the report text is exactly one line per new-or-changed record
in traversal order — `(root / name)` in POSIX style followed by a newline —
holding one newline per record (for newline-free paths), and every line's
path is absolute whenever the source root is absolute. -/
theorem c9_amended_report_lines (diff : List FileInfo) (root : String)
    (hroot : '\n' ∉ root.data) (hnames : ∀ i ∈ diff, '\n' ∉ i.name.data) :
    dump_diff diff root =
        String.join ((reportPaths diff root).map (fun p => p ++ "\n")) ∧
      countNL (dump_diff diff root) = diff.length ∧
      (isAbsPosix root = true → ∀ p ∈ reportPaths diff root, isAbsPosix p = true) := by
  refine ⟨?_, countNL_dump_diff diff root hroot hnames, ?_⟩
  · rw [dump_diff, reportPaths, List.map_map]
    rfl
  · intro habs p hp
    obtain ⟨x, _, rfl⟩ := List.mem_map.mp hp
    exact isAbsPosix_joinPath root x.name habs

theorem c9_witness :
    dump_diff [⟨"a.txt", 1, 2, "h"⟩] "/r" =
        String.join ((reportPaths [⟨"a.txt", 1, 2, "h"⟩] "/r").map (fun p => p ++ "\n")) ∧
      countNL (dump_diff [⟨"a.txt", 1, 2, "h"⟩] "/r") =
        List.length [(⟨"a.txt", 1, 2, "h"⟩ : FileInfo)] ∧
      (isAbsPosix "/r" = true →
        ∀ p ∈ reportPaths [⟨"a.txt", 1, 2, "h"⟩] "/r", isAbsPosix p = true) :=
  c9_amended_report_lines [⟨"a.txt", 1, 2, "h"⟩] "/r" (by decide) (by decide)

/-! ### `dump_info` as a step sequence against the disk

`dump_info` interacts with the filesystem and the embedded database as the
sequence: `out_path.unlink(missing_ok=True)`, open the UnQLite file, one
`db.transaction()` around every `db[info.name] = ...` write, commit when the
`with` blocks exit.  The step semantics below is the embedded database's
documented transactional contract: buffered writes become visible only at
commit, so a crash (stopping after any prefix of the steps) loses the
buffer. -/

/-- One primitive step of `dump_info`. -/
inductive DumpStep where
  | unlink (missing_ok : Bool)
  | openDB
  | beginTxn
  | putKV (k : String) (v : FileInfo)
  | commitTxn
  deriving Repr, DecidableEq

/-- The disk as an observer sees it: `file` is the committed store content at
the output path (`none` = no file), `txn` a pending uncommitted buffer. -/
structure DiskState where
  file : Option Store
  txn : Option Store
  deriving Repr, DecidableEq

/-- Step semantics.  `unlink` fails on a missing file only without
`missing_ok`; `openDB` creates an empty store when none exists; a write
outside a transaction is not used by this program and is modelled as an
error; `commitTxn` publishes the whole buffer at once. -/
def DumpStep.run (s : DiskState) : DumpStep → Except Unit DiskState
  | .unlink mo =>
      match s.file with
      | some _ => .ok ⟨none, s.txn⟩
      | none => if mo then .ok ⟨none, s.txn⟩ else .error ()
  | .openDB => .ok ⟨some (s.file.getD []), s.txn⟩
  | .beginTxn => .ok ⟨s.file, some []⟩
  | .putKV k v =>
      match s.txn with
      | some b => .ok ⟨s.file, some (b.put k v)⟩
      | none => .error ()
  | .commitTxn =>
      match s.txn with
      | some b => .ok ⟨some (b ++ s.file.getD []), none⟩
      | none => .error ()

/-- Run a list of steps, stopping at the first failure. -/
def runSteps (s : DiskState) : List DumpStep → Except Unit DiskState
  | [] => .ok s
  | st :: rest =>
      match DumpStep.run s st with
      | .ok s' => runSteps s' rest
      | .error e => .error e

/-- The step sequence of `dump_info(dirinfo, out_path)`. -/
def dumpSteps (infos : List FileInfo) : List DumpStep :=
  [DumpStep.unlink true, DumpStep.openDB, DumpStep.beginTxn] ++
    (infos.map fun i => DumpStep.putKV i.name i) ++ [DumpStep.commitTxn]

theorem runSteps_cons_ok {s s' : DiskState} {st : DumpStep} (rest : List DumpStep)
    (h : DumpStep.run s st = .ok s') :
    runSteps s (st :: rest) = runSteps s' rest := by
  simp [runSteps, h]

theorem runSteps_puts (l : List FileInfo) (f : Option Store) (b : Store)
    (rest : List DumpStep) :
    runSteps ⟨f, some b⟩ ((l.map fun i => DumpStep.putKV i.name i) ++ rest) =
      runSteps ⟨f, some (l.foldl (fun s i => s.put i.name i) b)⟩ rest := by
  induction l generalizing b with
  | nil => rfl
  | cons x xs ih =>
      rw [List.map_cons, List.cons_append,
        runSteps_cons_ok _ (show DumpStep.run ⟨f, some b⟩ (DumpStep.putKV x.name x) =
          .ok ⟨f, some (b.put x.name x)⟩ from rfl),
        ih, List.foldl_cons]

theorem run_unlink_true (s : DiskState) :
    DumpStep.run s (DumpStep.unlink true) = .ok ⟨none, s.txn⟩ := by
  cases s with
  | mk f t => cases f <;> simp [DumpStep.run]

/-- C8: saving a snapshot runs to completion from any prior disk state — a
pre-existing file is unconditionally replaced and a missing one is not an
error — ending with exactly the new store on disk; and since every record is
written inside the one transaction, stopping after any proper nonempty prefix
of the steps (a crash mid-save) leaves either no store file or an empty one
visible, never a readable store holding only part of the new snapshot. -/
theorem c8_unconditional_replace_and_atomic_visibility
    (infos : List FileInfo) (s₀ : DiskState) (k : Nat)
    (hk1 : 1 ≤ k) (hk2 : k < (dumpSteps infos).length) :
    runSteps s₀ (dumpSteps infos) = .ok ⟨some (dump_info infos), none⟩ ∧
      ∃ s', runSteps s₀ ((dumpSteps infos).take k) = .ok s' ∧
        (s'.file = none ∨ s'.file = some []) := by
  have hu : DumpStep.run s₀ (DumpStep.unlink true) = .ok ⟨none, s₀.txn⟩ :=
    run_unlink_true s₀
  have ho : DumpStep.run ⟨none, s₀.txn⟩ DumpStep.openDB = .ok ⟨some [], s₀.txn⟩ := rfl
  have hb : DumpStep.run ⟨some [], s₀.txn⟩ DumpStep.beginTxn =
      .ok ⟨some [], some []⟩ := rfl
  have hshape : dumpSteps infos =
      DumpStep.unlink true :: DumpStep.openDB :: DumpStep.beginTxn ::
        ((infos.map fun i => DumpStep.putKV i.name i) ++ [DumpStep.commitTxn]) := rfl
  constructor
  · rw [hshape, runSteps_cons_ok _ hu, runSteps_cons_ok _ ho, runSteps_cons_ok _ hb,
      runSteps_puts]
    simp [runSteps, DumpStep.run, dump_info, Store.empty]
  · have hlen : (dumpSteps infos).length = infos.length + 4 := by
      simp [dumpSteps]
    match k, hk1, hk2 with
    | 1, _, _ =>
        refine ⟨⟨none, s₀.txn⟩, ?_, Or.inl rfl⟩
        rw [hshape]
        rw [show (DumpStep.unlink true :: DumpStep.openDB :: DumpStep.beginTxn ::
          ((infos.map fun i => DumpStep.putKV i.name i) ++ [DumpStep.commitTxn])).take 1 =
          [DumpStep.unlink true] from rfl]
        rw [runSteps_cons_ok _ hu]
        rfl
    | 2, _, _ =>
        refine ⟨⟨some [], s₀.txn⟩, ?_, Or.inr rfl⟩
        rw [hshape]
        rw [show (DumpStep.unlink true :: DumpStep.openDB :: DumpStep.beginTxn ::
          ((infos.map fun i => DumpStep.putKV i.name i) ++ [DumpStep.commitTxn])).take 2 =
          [DumpStep.unlink true, DumpStep.openDB] from rfl]
        rw [runSteps_cons_ok _ hu, runSteps_cons_ok _ ho]
        rfl
    | 3, _, _ =>
        refine ⟨⟨some [], some []⟩, ?_, Or.inr rfl⟩
        rw [hshape]
        rw [show (DumpStep.unlink true :: DumpStep.openDB :: DumpStep.beginTxn ::
          ((infos.map fun i => DumpStep.putKV i.name i) ++ [DumpStep.commitTxn])).take 3 =
          [DumpStep.unlink true, DumpStep.openDB, DumpStep.beginTxn] from rfl]
        rw [runSteps_cons_ok _ hu, runSteps_cons_ok _ ho, runSteps_cons_ok _ hb]
        rfl
    | (j+4), _, hk2 =>
        have hj : j + 1 ≤ infos.length := by
          rw [hlen] at hk2
          omega
        refine ⟨⟨some [],
          some ((infos.take (j+1)).foldl (fun s i => s.put i.name i) [])⟩, ?_, Or.inr rfl⟩
        rw [hshape]
        have htake : (DumpStep.unlink true :: DumpStep.openDB :: DumpStep.beginTxn ::
            ((infos.map fun i => DumpStep.putKV i.name i) ++ [DumpStep.commitTxn])).take (j+4) =
            DumpStep.unlink true :: DumpStep.openDB :: DumpStep.beginTxn ::
              ((infos.map fun i => DumpStep.putKV i.name i) ++ [DumpStep.commitTxn]).take (j+1) := rfl
        rw [htake]
        have hmaplen : (infos.map fun i => DumpStep.putKV i.name i).length = infos.length :=
          List.length_map _ _
        rw [List.take_append_of_le_length (by rw [hmaplen]; exact hj)]
        rw [← List.map_take]
        rw [runSteps_cons_ok _ hu, runSteps_cons_ok _ ho, runSteps_cons_ok _ hb]
        rw [show ((infos.take (j+1)).map fun i => DumpStep.putKV i.name i) =
          ((infos.take (j+1)).map fun i => DumpStep.putKV i.name i) ++ [] by simp]
        rw [runSteps_puts]
        rfl

theorem c8_witness :
    runSteps ⟨none, none⟩ (dumpSteps [⟨"a", 1, 2, "x"⟩]) =
        Except.ok ⟨some (dump_info [⟨"a", 1, 2, "x"⟩]), none⟩ ∧
      ∃ s', runSteps ⟨none, none⟩ ((dumpSteps [⟨"a", 1, 2, "x"⟩]).take 3) =
          Except.ok s' ∧ (s'.file = none ∨ s'.file = some []) :=
  c8_unconditional_replace_and_atomic_visibility [⟨"a", 1, 2, "x"⟩] ⟨none, none⟩ 3
    (by decide) (by decide)
